import Mathlib

/-!
Shallow embedding of the training script train_sort.py of the cleanrlhf
repository, together with theorems about it.

Modelling conventions:
* machine integers (torch long tensors, jnp int arrays) are Lean Int;
  float logits are Lean Rat; a 2-d array is a list of rows; a 3-d logits
  array of shape (b, T, vocab) is a list of rows, each a list of positions,
  each a list of per-token scores;
* the stream of randomness consumed by SortDataset getitem
  (torch.randint and torch.rand) is passed in explicitly as a list of
  draws, one per iteration of the rejection-sampling while loop; the
  loop returns none when the stream is exhausted;
* external library functions that this repository only calls are passed
  in as explicit function arguments: the Python hash of the pickled
  sample (hashFn), the transformer apply function (applyFn, with its
  PRNG key threading), jax.random.categorical (sampler) and
  jax.random.split (splitKey);
* torch.sort returns the sorted tensor; it is embedded as
  List.insertionSort, a sorted permutation of the input;
* jnp.topk does not exist in the jax.numpy namespace, so the top-k
  branch of generate raises AttributeError; the embedding returns none
  there;
* with do_sample, jax.random.categorical applied to the (b, vocab)
  last-position logits returns a rank-1 array of shape (b,), and
  jnp.concatenate of the rank-2 running sequence with it along the last
  axis raises ValueError, so the sampling branch fails before appending
  a token; the embedding returns none there too;
* fallible or possibly non-terminating code returns Option.
-/

/-- PRNG keys are abstract; only their threading matters here. -/
abbrev Key := ℕ

/-- Logits array of shape (batch, positions, vocab). -/
abbrev Logits := List (List (List ℚ))

/-- One iteration of randomness consumed by the rejection-sampling loop of
SortDataset getitem: inp is the candidate from
torch.randint(num_digits, size=(length,)), coin is the outcome of the
comparison torch.rand(1).item() < 0.5. -/
structure Draw where
  inp : List ℤ
  coin : Bool

/-- Embeds the distributional check of getitem (train_sort.py lines
101-104): with probability one half (coin) the candidate is re-sampled
when inp.unique().nelement() > self.length // 2. Returns true exactly
when the candidate is rejected and the loop continues. -/
def distRejects (length : ℕ) (coin : Bool) (inp : List ℤ) : Bool :=
  coin && decide (inp.dedup.length > length / 2)

/-- Embeds lines 106-107: the split a candidate belongs to, from the hash
of the pickled sample; 25 percent of examples (hash divisible by 4) are
designated test. hashFn stands for the composite
hash(pickle.dumps(inp.tolist())); Int emod matches the sign convention
of the Python percent operator for a positive modulus. -/
def splitOf (hashFn : List ℤ → ℤ) (inp : List ℤ) : String :=
  if hashFn inp % 4 = 0 then "test" else "train"

/-- Embeds the while-True rejection-sampling loop of getitem (lines
95-109), consuming one draw per iteration; returns the accepted
candidate inp, or none when the supplied stream of draws runs out. -/
def rejectionLoop (split : String) (length : ℕ) (hashFn : List ℤ → ℤ) :
    List Draw → Option (List ℤ)
  | [] => none
  | d :: ds =>
    if distRejects length d.coin d.inp then rejectionLoop split length hashFn ds
    else if splitOf hashFn d.inp = split then some d.inp
    else rejectionLoop split length hashFn ds

/-- Embeds torch.sort(inp)(0): the input sorted in non-decreasing order. -/
def sortInts (l : List ℤ) : List ℤ :=
  l.insertionSort (· ≤ ·)

/-- Embeds lines 111-122 of getitem, after a candidate inp is accepted:
sol = sort(inp), cat = inp ++ sol, x = cat drop-last, y = cat tail with
the first (length - 1) positions replaced by -1 (the loss mask). -/
def buildPair (length : ℕ) (inp : List ℤ) : List ℤ × List ℤ :=
  let sol := sortInts inp
  let cat := inp ++ sol
  let x := cat.dropLast
  let y0 := cat.tail
  let y := List.replicate (length - 1) (-1 : ℤ) ++ y0.drop (length - 1)
  (x, y)

/-- Embeds SortDataset getitem (lines 92-122). The parameters split,
length and num_digits are the dataset fields; hashFn and draws carry the
external hash function and the random stream; idx is the item index of
the Python signature (it is never read in the body). num_digits only
shapes the draws (torch.randint range), which theorems state as a
hypothesis on draws. -/
def getitem (split : String) (length num_digits : ℕ) (hashFn : List ℤ → ℤ)
    (draws : List Draw) (idx : ℕ) : Option (List ℤ × List ℤ) :=
  (rejectionLoop split length hashFn draws).map (buildPair length)

/-- Embeds SortDataset.get_vocab_size (lines 83-84). -/
def get_vocab_size (num_digits : ℕ) : ℕ := num_digits

/-- Embeds SortDataset.get_block_size (lines 86-90). -/
def get_block_size (length : ℕ) : ℕ := length * 2 - 1

/-- Embeds the shape query at line 216: T is the second dimension of the
(b, T) array idx, read off the first row (rows of a jnp array all have
the same length). -/
def numCols (idx : List (List ℤ)) : ℕ := (idx.headD []).length

/-- Embeds line 217: idx_cond is idx itself when T is at most block_size,
and otherwise the last block_size columns of idx. -/
def cropBlock (block_size : ℕ) (idx : List (List ℤ)) : List (List ℤ) :=
  if numCols idx ≤ block_size then idx
  else idx.map (fun row => row.drop (row.length - block_size))

/-- Embeds line 221: pluck the logits at the final position of each row
and scale by the temperature. -/
def lastLogits (temperature : ℚ) (logits : Logits) : List (List ℚ) :=
  logits.map (fun row => (row.getLastD []).map (fun v => v / temperature))

/-- Index of the running maximum, scanning the remaining scores; i is the
index of the next score, best the best index so far, bv its score. -/
def argmaxFrom : ℕ → ℕ → ℚ → List ℚ → ℕ
  | _, best, _, [] => best
  | i, best, bv, v :: vs =>
    if bv < v then argmaxFrom (i + 1) i v vs else argmaxFrom (i + 1) best bv vs

/-- Embeds jax.lax.top_k(logits, k=1) at line 233: the index of the
largest score, the lowest such index on ties. -/
def argmaxIdx (l : List ℚ) : ℤ :=
  match l with
  | [] => 0
  | v :: vs => Int.ofNat (argmaxFrom 1 0 v vs)

/-- Embeds one iteration of the for loop of generate (lines 214-235):
crop the context to block_size, call the model, scale the last-position
logits, pick the next greedy token per row and append it. The two error
paths return none: the top-k branch (lines 223-225) calls jnp.topk,
which does not exist in jax.numpy, so it raises AttributeError; and the
do_sample branch (line 230) computes jax.random.categorical of the
(b, vocab) logits, a rank-1 array of shape (b,) (the sampler argument
embeds that call), whose jnp.concatenate with the rank-2 running
sequence at line 235 raises ValueError, so no token is ever appended on
the sampling path. Only the greedy branch (line 233, jax.lax.top_k with
k=1, whose indices have shape (b, 1)) reaches the append. -/
def generateStep (applyFn : List (List ℤ) → Key → Logits × Key)
    (sampler : Key → List ℚ → ℤ) (block_size : ℕ) (temperature : ℚ)
    (do_sample : Bool) (top_k : Option ℕ) (st : List (List ℤ) × Key) :
    Option (List (List ℤ) × Key) :=
  let idx_cond := cropBlock block_size st.1
  let res := applyFn idx_cond st.2
  let logits := lastLogits temperature res.1
  match top_k with
  | some _ => none
  | none =>
    if do_sample then
      none
    else
      some (st.1.zipWith (fun row t => row ++ [t]) (logits.map argmaxIdx),
        res.2)

/-- Runs the body of generate for the given number of steps, threading
the running sequence and the PRNG key. -/
def generateAux (applyFn : List (List ℤ) → Key → Logits × Key)
    (sampler : Key → List ℚ → ℤ) (block_size : ℕ) (temperature : ℚ)
    (do_sample : Bool) (top_k : Option ℕ) :
    ℕ → List (List ℤ) × Key → Option (List (List ℤ) × Key)
  | 0, st => some st
  | n + 1, st =>
    (generateStep applyFn sampler block_size temperature do_sample top_k st).bind
      (generateAux applyFn sampler block_size temperature do_sample top_k n)

/-- Embeds generate (lines 208-237): complete the conditioning sequence
idx max_new_tokens times, feeding predictions back into the model. -/
def generate (applyFn : List (List ℤ) → Key → Logits × Key)
    (sampler : Key → List ℚ → ℤ) (block_size : ℕ) (key : Key)
    (idx : List (List ℤ)) (max_new_tokens : ℕ) (temperature : ℚ)
    (do_sample : Bool) (top_k : Option ℕ) : Option (List (List ℤ)) :=
  (generateAux applyFn sampler block_size temperature do_sample top_k
      max_new_tokens (idx, key)).map Prod.fst

/-- Embeds the body of the for loop over batches in eval_split (lines
283-298): isolate inp = x[:, :n] and sol = y[:, -n:], split the key, run
greedy generation (do_sample=False, temperature 1, top_k None) for n new
tokens, isolate sol_candidate = cat[:, n:], and compare row for row. -/
def evalBatch (applyFn : List (List ℤ) → Key → Logits × Key)
    (sampler : Key → List ℚ → ℤ) (splitKey : Key → Key × Key)
    (block_size n : ℕ) (key : Key) (x y : List (List ℤ)) :
    Option (List Bool × Key) :=
  let inp := x.map (List.take n)
  let sol := y.map (fun r => r.drop (r.length - n))
  let ks := splitKey key
  match generate applyFn sampler block_size ks.2 inp n 1 false none with
  | none => none
  | some cat =>
    let sol_candidate := cat.map (List.drop n)
    some (List.zipWith (fun s c => decide (s = c)) sol sol_candidate, ks.1)

/-- Embeds the batch loop of eval_split (lines 283-300): b is the batch
counter, acc the accumulated results list of per-example correctness
flags; after a batch, stop when max_batches is set and b + 1 reaches it. -/
def evalLoop (applyFn : List (List ℤ) → Key → Logits × Key)
    (sampler : Key → List ℚ → ℤ) (splitKey : Key → Key × Key)
    (block_size n : ℕ) (max_batches : Option ℕ) :
    ℕ → Key → List (List (List ℤ) × List (List ℤ)) → List Bool →
    Option (List Bool)
  | _, _, [], acc => some acc
  | b, key, (x, y) :: rest, acc =>
    match evalBatch applyFn sampler splitKey block_size n key x y with
    | none => none
    | some rk =>
      let acc2 := acc ++ rk.1
      if (match max_batches with
          | some m => decide (m ≤ b + 1)
          | none => false)
      then some acc2
      else evalLoop applyFn sampler splitKey block_size n max_batches
        (b + 1) rk.2 rest acc2

/-- Embeds eval_split (lines 277-303): run the batch loop from counter 0
with an empty results list and return the sum of the 0/1 correctness
values (rt.sum(); the float32 sum is exact on these small 0/1 counts,
so it is embedded as an integer sum). -/
def eval_split (applyFn : List (List ℤ) → Key → Logits × Key)
    (sampler : Key → List ℚ → ℤ) (splitKey : Key → Key × Key)
    (block_size n : ℕ) (max_batches : Option ℕ) (key : Key)
    (batches : List (List (List ℤ) × List (List ℤ))) : Option ℤ :=
  (evalLoop applyFn sampler splitKey block_size n max_batches 0 key batches
      []).map (fun results => (results.map (fun c => if c then (1 : ℤ) else 0)).sum)

/-- Embeds the while-True training loop (lines 239-262): each iteration
fetches a batch and invokes one optimizer update step (upd on the
abstract training state), increments iter_num, and breaks once iter_num
reaches config.trainer.max_iters. fuel bounds the number of iterations
the embedding may unfold; none means the loop did not terminate within
fuel iterations. On termination it returns the number of iterations
executed and the final training state. -/
def trainLoop {σ : Type} (max_iters : ℕ) (upd : σ → σ) :
    ℕ → ℕ → σ → Option (ℕ × σ)
  | 0, _, _ => none
  | fuel + 1, iter_num, s =>
    let s2 := upd s
    let iter_num2 := iter_num + 1
    if max_iters ≤ iter_num2 then some (iter_num2, s2)
    else trainLoop max_iters upd fuel iter_num2 s2

/-- Any candidate returned by the rejection loop is the inp field of one
of the supplied draws. -/
theorem rejectionLoop_mem {split : String} {L : ℕ} {hashFn : List ℤ → ℤ} :
    ∀ {draws : List Draw} {inp : List ℤ},
      rejectionLoop split L hashFn draws = some inp → ∃ d ∈ draws, d.inp = inp := by
  intro draws
  induction draws with
  | nil => intro inp h; simp [rejectionLoop] at h
  | cons d ds ih =>
    intro inp h
    by_cases h1 : distRejects L d.coin d.inp = true
    · rw [rejectionLoop, if_pos h1] at h
      obtain ⟨d2, hd2, he⟩ := ih h
      exact ⟨d2, List.mem_cons_of_mem _ hd2, he⟩
    · rw [rejectionLoop, if_neg h1] at h
      by_cases h2 : splitOf hashFn d.inp = split
      · rw [if_pos h2] at h
        exact ⟨d, List.mem_cons_self _ _, Option.some.inj h⟩
      · rw [if_neg h2] at h
        obtain ⟨d2, hd2, he⟩ := ih h
        exact ⟨d2, List.mem_cons_of_mem _ hd2, he⟩

/-- Any candidate returned by the rejection loop belongs to the requested
split according to the hash-based designation. -/
theorem rejectionLoop_split {split : String} {L : ℕ} {hashFn : List ℤ → ℤ} :
    ∀ {draws : List Draw} {inp : List ℤ},
      rejectionLoop split L hashFn draws = some inp → splitOf hashFn inp = split := by
  intro draws
  induction draws with
  | nil => intro inp h; simp [rejectionLoop] at h
  | cons d ds ih =>
    intro inp h
    by_cases h1 : distRejects L d.coin d.inp = true
    · rw [rejectionLoop, if_pos h1] at h
      exact ih h
    · rw [rejectionLoop, if_neg h1] at h
      by_cases h2 : splitOf hashFn d.inp = split
      · rw [if_pos h2] at h
        rw [← Option.some.inj h]
        exact h2
      · rw [if_neg h2] at h
        exact ih h

/-- A sample is designated test exactly when its hash is divisible by 4. -/
theorem splitOf_test {hashFn : List ℤ → ℤ} {inp : List ℤ} :
    splitOf hashFn inp = "test" ↔ hashFn inp % 4 = 0 := by
  unfold splitOf
  split_ifs with h
  · simp [h]
  · exact iff_of_false (by decide) h

/-- A sample is designated train exactly when its hash is not divisible
by 4. -/
theorem splitOf_train {hashFn : List ℤ → ℤ} {inp : List ℤ} :
    splitOf hashFn inp = "train" ↔ ¬ hashFn inp % 4 = 0 := by
  unfold splitOf
  split_ifs with h
  · exact iff_of_false (by decide) (fun hc => hc h)
  · exact iff_of_true rfl h

/-- The two halves of the pair built from an accepted candidate: the
first length entries of x are the candidate and the last length entries
of y are its sorted version. -/
theorem buildPair_take_drop {L : ℕ} {inp : List ℤ} (hL : 1 ≤ L)
    (hlen : inp.length = L) :
    (buildPair L inp).1.take L = inp ∧
    (buildPair L inp).2.drop (L - 1) = sortInts inp := by
  have hsol : (sortInts inp).length = L := by
    rw [sortInts, List.length_insertionSort, hlen]
  have hcat : (inp ++ sortInts inp).length = 2 * L := by
    rw [List.length_append, hlen, hsol]; omega
  constructor
  · show ((inp ++ sortInts inp).dropLast).take L = inp
    rw [List.dropLast_eq_take, List.take_take, hcat]
    have hmin : L ⊓ (2 * L - 1) = L := by omega
    rw [hmin, List.take_left' hlen]
  · show (List.replicate (L - 1) (-1 : ℤ) ++
        ((inp ++ sortInts inp).tail.drop (L - 1))).drop (L - 1) = sortInts inp
    rw [List.drop_left' (List.length_replicate _ _), ← List.drop_one,
      List.drop_drop]
    have h1 : 1 + (L - 1) = L := by omega
    rw [h1, List.drop_left' hlen]

/-- C1: for every pair (x, y) returned by SortDataset getitem with
sequence length L, the first L elements of x are the generated (accepted)
input sequence and the last L elements of y (y has length 2L-1, so these
are the elements from position L-1 on) are exactly that input sequence
sorted in non-decreasing order: they equal sortInts of it, are sorted,
and are a permutation of it. -/
theorem getitem_yields_sorted_pairs
    (split : String) (L nd : ℕ) (hashFn : List ℤ → ℤ) (draws : List Draw)
    (i : ℕ) (x y : List ℤ) (hL : 1 ≤ L)
    (hlen : ∀ d ∈ draws, d.inp.length = L)
    (h : getitem split L nd hashFn draws i = some (x, y)) :
    ∃ inp, rejectionLoop split L hashFn draws = some inp ∧
      x.take L = inp ∧ y.drop (L - 1) = sortInts inp ∧
      (y.drop (L - 1)).Sorted (· ≤ ·) ∧ (y.drop (L - 1)).Perm inp := by
  unfold getitem at h
  cases hr : rejectionLoop split L hashFn draws with
  | none => rw [hr] at h; simp at h
  | some inp =>
    rw [hr] at h
    simp only [Option.map_some'] at h
    have hpair := Option.some.inj h
    obtain ⟨d, hd, hde⟩ := rejectionLoop_mem hr
    have hilen : inp.length = L := by rw [← hde]; exact hlen d hd
    obtain ⟨h1, h2⟩ := buildPair_take_drop hL hilen
    have hx : x = (buildPair L inp).1 := by rw [hpair]
    have hy : y = (buildPair L inp).2 := by rw [hpair]
    subst hx; subst hy
    refine ⟨inp, rfl, h1, h2, ?_, ?_⟩
    · rw [h2, sortInts]
      exact List.sorted_insertionSort _ _
    · rw [h2, sortInts]
      exact List.perm_insertionSort _ _

/-- Witness for C1: a concrete run with split train, length 2,
hash = sum of the entries; the accepted candidate is [1, 0] and the pair
is ([1, 0, 0], [-1, 0, 1]). -/
theorem getitem_yields_sorted_pairs_witness :
    ∃ inp, rejectionLoop "train" 2 (fun l => l.sum) [⟨[1, 0], false⟩] = some inp ∧
      ([1, 0, 0] : List ℤ).take 2 = inp ∧
      ([-1, 0, 1] : List ℤ).drop 1 = sortInts inp ∧
      (([-1, 0, 1] : List ℤ).drop 1).Sorted (· ≤ ·) ∧
      (([-1, 0, 1] : List ℤ).drop 1).Perm inp :=
  getitem_yields_sorted_pairs "train" 2 3 (fun l => l.sum) [⟨[1, 0], false⟩] 0
    [1, 0, 0] [-1, 0, 1] (by decide)
    (by intro d hd; simp only [List.mem_singleton] at hd; subst hd; rfl)
    (by decide)

/-- C2 counterexample: the distributional check of getitem rejects the
maximally diverse candidate [0, 1, 2, 3, 4, 5] (all 6 digits distinct,
more than length // 2 = 3), which is not a highly-repetitive sequence,
and it never rejects the maximally repetitive candidate
[0, 0, 0, 0, 0, 0]; so the rejected candidates are the diverse ones,
not the repetitive ones. -/
theorem distRejects_diverse_counterexample :
    distRejects 6 true [0, 1, 2, 3, 4, 5] = true ∧
    ¬ (([0, 1, 2, 3, 4, 5] : List ℤ).dedup.length ≤ 6 / 2) ∧
    distRejects 6 true [0, 0, 0, 0, 0, 0] = false := by decide

/-- C2 amended: whenever the distributional check rejects a candidate and
redraws, the rejected candidate has many distinct digits (strictly more
than length // 2) and the coin came up heads; so highly-diverse
sequences are the ones suppressed among returned samples, boosting the
repetitive ones. -/
theorem distRejects_only_diverse (L : ℕ) (coin : Bool) (inp : List ℤ)
    (h : distRejects L coin inp = true) :
    L / 2 < inp.dedup.length ∧ coin = true := by
  unfold distRejects at h
  simp only [Bool.and_eq_true, decide_eq_true_eq] at h
  exact ⟨h.2, h.1⟩

/-- Witness for the amended C2 at a concrete rejected candidate. -/
theorem distRejects_only_diverse_witness :
    6 / 2 < ([0, 1, 2, 3] : List ℤ).dedup.length ∧ true = true :=
  distRejects_only_diverse 6 true [0, 1, 2, 3] (by decide)

/-- C3: getitem enforces the hash-based train/test split: every input
sequence accepted for a test dataset has hash divisible by 4, every
input sequence accepted for a train dataset has hash not divisible by
4, and hence no input sequence is ever returned by both splits. -/
theorem rejectionLoop_hash_split_disjoint (L : ℕ) (hashFn : List ℤ → ℤ) :
    (∀ draws inp, rejectionLoop "test" L hashFn draws = some inp →
        hashFn inp % 4 = 0) ∧
    (∀ draws inp, rejectionLoop "train" L hashFn draws = some inp →
        hashFn inp % 4 ≠ 0) ∧
    (∀ ds1 ds2 a b, rejectionLoop "test" L hashFn ds1 = some a →
        rejectionLoop "train" L hashFn ds2 = some b → a ≠ b) := by
  refine ⟨?_, ?_, ?_⟩
  · intro draws inp h
    exact splitOf_test.mp (rejectionLoop_split h)
  · intro draws inp h
    exact splitOf_train.mp (rejectionLoop_split h)
  · intro ds1 ds2 a b h1 h2 he
    subst he
    exact splitOf_train.mp (rejectionLoop_split h2)
      (splitOf_test.mp (rejectionLoop_split h1))

/-- Witness for C3: with hash = sum of the entries, a test run accepts
[0, 0] (hash 0) and a train run accepts [1, 0] (hash 1). -/
theorem rejectionLoop_hash_split_disjoint_witness :
    ([0, 0] : List ℤ).sum % 4 = 0 ∧ ([1, 0] : List ℤ).sum % 4 ≠ 0 :=
  ⟨(rejectionLoop_hash_split_disjoint 2 (fun l => l.sum)).1
      [⟨[0, 0], false⟩] [0, 0] (by decide),
    (rejectionLoop_hash_split_disjoint 2 (fun l => l.sum)).2.1
      [⟨[1, 0], false⟩] [1, 0] (by decide)⟩

/-- C9: getitem never reads its idx argument: with the same dataset
parameters and the same state of the random stream, any two indices
yield identical results, so item identity is determined solely by the
random stream. -/
theorem getitem_ignores_idx (split : String) (L nd : ℕ)
    (hashFn : List ℤ → ℤ) (draws : List Draw) (i j : ℕ) :
    getitem split L nd hashFn draws i = getitem split L nd hashFn draws j := rfl

/-- C8: every pair (x, y) returned by getitem has length 2L - 1 in both
components, equal to get_block_size; the first L - 1 elements of y are
-1 (the loss mask); every element of x lies in the digit range
[0, get_vocab_size); and for L - 1 <= j < 2L - 2, y at j equals x at
j + 1: x and y are the one-step-shifted views of the concatenated
sequence. -/
theorem getitem_shape_mask_shift
    (split : String) (L nd : ℕ) (hashFn : List ℤ → ℤ) (draws : List Draw)
    (i : ℕ) (x y : List ℤ) (hL : 1 ≤ L)
    (hlen : ∀ d ∈ draws, d.inp.length = L)
    (hrange : ∀ d ∈ draws, ∀ v ∈ d.inp, 0 ≤ v ∧ v < (nd : ℤ))
    (h : getitem split L nd hashFn draws i = some (x, y)) :
    x.length = get_block_size L ∧ y.length = get_block_size L ∧
    get_block_size L = 2 * L - 1 ∧
    (∀ j, j < L - 1 → y.getD j 0 = -1) ∧
    (∀ v ∈ x, 0 ≤ v ∧ v < (get_vocab_size nd : ℤ)) ∧
    (∀ j, L - 1 ≤ j → j < 2 * L - 2 → y.getD j 0 = x.getD (j + 1) 0) := by
  unfold getitem at h
  cases hr : rejectionLoop split L hashFn draws with
  | none => rw [hr] at h; simp at h
  | some inp =>
    rw [hr] at h
    simp only [Option.map_some'] at h
    have hpair := Option.some.inj h
    obtain ⟨d, hd, hde⟩ := rejectionLoop_mem hr
    have hilen : inp.length = L := by rw [← hde]; exact hlen d hd
    have hirange : ∀ v ∈ inp, 0 ≤ v ∧ v < (nd : ℤ) := by
      rw [← hde]; exact hrange d hd
    have hsol : (sortInts inp).length = L := by
      rw [sortInts, List.length_insertionSort, hilen]
    have hcat : (inp ++ sortInts inp).length = 2 * L := by
      rw [List.length_append, hilen, hsol]; omega
    have hx : (inp ++ sortInts inp).dropLast = x := congrArg Prod.fst hpair
    have hy : List.replicate (L - 1) (-1 : ℤ) ++
        ((inp ++ sortInts inp).tail.drop (L - 1)) = y := congrArg Prod.snd hpair
    subst hx; subst hy
    refine ⟨?_, ?_, ?_, ?_, ?_, ?_⟩
    · rw [List.length_dropLast, hcat]
      unfold get_block_size; omega
    · rw [List.length_append, List.length_replicate, List.length_drop,
        List.length_tail, hcat]
      unfold get_block_size; omega
    · unfold get_block_size; omega
    · intro j hj
      rw [List.getD_eq_getElem?_getD,
        List.getElem?_append_left (by rw [List.length_replicate]; exact hj),
        List.getElem?_replicate, if_pos hj]
      rfl
    · intro v hv
      have hvc : v ∈ inp ++ sortInts inp :=
        (List.dropLast_sublist _).subset hv
      rcases List.mem_append.mp hvc with h1 | h2
      · exact hirange v h1
      · exact hirange v ((List.perm_insertionSort _ inp).subset h2)
    · intro j hj1 hj2
      rw [List.getD_eq_getElem?_getD, List.getD_eq_getElem?_getD,
        List.getElem?_append_right (by rw [List.length_replicate]; exact hj1),
        List.length_replicate, ← List.drop_one, List.drop_drop,
        List.getElem?_drop, List.dropLast_eq_take, List.getElem?_take, hcat]
      have harith : 1 + (L - 1) + (j - (L - 1)) = j + 1 := by omega
      rw [harith, if_pos (by omega : j + 1 < 2 * L - 1)]

/-- Witness for C8: the same concrete run as for C1, with length 2 and
3 digits. -/
theorem getitem_shape_mask_shift_witness :
    ([1, 0, 0] : List ℤ).length = get_block_size 2 ∧
    ([-1, 0, 1] : List ℤ).length = get_block_size 2 ∧
    get_block_size 2 = 2 * 2 - 1 ∧
    (∀ j, j < 2 - 1 → ([-1, 0, 1] : List ℤ).getD j 0 = -1) ∧
    (∀ v ∈ ([1, 0, 0] : List ℤ), 0 ≤ v ∧ v < (get_vocab_size 3 : ℤ)) ∧
    (∀ j, 2 - 1 ≤ j → j < 2 * 2 - 2 →
      ([-1, 0, 1] : List ℤ).getD j 0 = ([1, 0, 0] : List ℤ).getD (j + 1) 0) :=
  getitem_shape_mask_shift "train" 2 3 (fun l => l.sum) [⟨[1, 0], false⟩] 0
    [1, 0, 0] [-1, 0, 1] (by decide)
    (by intro d hd; simp only [List.mem_singleton] at hd; subst hd; rfl)
    (by intro d hd; simp only [List.mem_singleton] at hd; subst hd; decide)
    (by decide)

/-- Running the training loop with fuel equal to the number of remaining
iterations breaks after exactly those iterations, one update per
iteration. -/
theorem trainLoop_run {σ : Type} (upd : σ → σ) :
    ∀ (r : ℕ) (i : ℕ) (s : σ),
      trainLoop (i + (r + 1)) upd (r + 1) i s =
        some (i + (r + 1), upd^[r + 1] s) := by
  intro r
  induction r with
  | zero =>
    intro i s
    rw [trainLoop]
    split_ifs with hc
    · simp
    · exact absurd (by omega : i + (0 + 1) ≤ i + 1) hc
  | succ r ih =>
    intro i s
    rw [trainLoop]
    split_ifs with hc
    · exact absurd hc (by omega)
    · have h2 := ih (i + 1) (upd s)
      have harith : i + 1 + (r + 1) = i + (r + 1 + 1) := by omega
      rw [harith] at h2
      rw [h2, ← Function.iterate_succ_apply]

/-- C6: the training loop terminates: for max_iters at least 1, running
the while-True loop from iter_num 0 with fuel max_iters breaks after
exactly max_iters iterations, each having invoked one optimizer update
step (the final training state is the max_iters-fold update of the
initial one), after which control proceeds to evaluation. -/
theorem trainLoop_terminates {σ : Type} (max_iters : ℕ) (upd : σ → σ)
    (s : σ) (h : 1 ≤ max_iters) :
    trainLoop max_iters upd max_iters 0 s =
      some (max_iters, upd^[max_iters] s) := by
  obtain ⟨r, rfl⟩ : ∃ r, max_iters = r + 1 := ⟨max_iters - 1, by omega⟩
  have h2 := trainLoop_run upd r 0 s
  simpa using h2

/-- Witness for C6: three iterations of the successor update. -/
theorem trainLoop_terminates_witness :
    trainLoop 3 Nat.succ 3 0 0 = some (3, Nat.succ^[3] 0) :=
  trainLoop_terminates 3 Nat.succ 0 (by decide)

/-- Cropping the context never changes the number of rows. -/
theorem cropBlock_length (bs : ℕ) (idx : List (List ℤ)) :
    (cropBlock bs idx).length = idx.length := by
  unfold cropBlock
  split_ifs <;> simp

/-- With top_k None and do_sample False, one step of generate always
succeeds and appends exactly one token to every row (the token list has
one entry per row when the model returns one logits row per input
row). -/
theorem generateStep_none_spec (applyFn : List (List ℤ) → Key → Logits × Key)
    (sampler : Key → List ℚ → ℤ) (bs : ℕ) (temp : ℚ)
    (hApply : ∀ x k, ((applyFn x k).1).length = x.length)
    (st : List (List ℤ) × Key) :
    ∃ (tokens : List ℤ) (k2 : Key), tokens.length = st.1.length ∧
      generateStep applyFn sampler bs temp false none st =
        some (st.1.zipWith (fun row t => row ++ [t]) tokens, k2) := by
  refine ⟨(lastLogits temp (applyFn (cropBlock bs st.1) st.2).1).map argmaxIdx,
    (applyFn (cropBlock bs st.1) st.2).2, ?_, rfl⟩
  simp [lastLogits, List.length_map, hApply, cropBlock_length]

/-- Zipping each row with its appended token realizes the pointwise
one-token-extension relation. -/
theorem forall2_append_one (idx : List (List ℤ)) :
    ∀ tokens : List ℤ, tokens.length = idx.length →
      List.Forall₂ (fun r r2 => ∃ t : ℤ, r2 = r ++ [t]) idx
        (idx.zipWith (fun row t => row ++ [t]) tokens) := by
  induction idx with
  | nil => intro tokens _; simp
  | cons r rs ih =>
    intro tokens h
    cases tokens with
    | nil => simp at h
    | cons t ts =>
      simp only [List.zipWith]
      exact List.Forall₂.cons ⟨t, rfl⟩ (ih ts (by simpa using h))

/-- Pointwise composition of two Forall₂ relations through a middle
list. -/
theorem forall2_trans_comp {α : Type} {R S T : α → α → Prop}
    (h : ∀ a b c, R a b → S b c → T a c) :
    ∀ {l1 l2 l3 : List α}, List.Forall₂ R l1 l2 → List.Forall₂ S l2 l3 →
      List.Forall₂ T l1 l3 := by
  intro l1
  induction l1 with
  | nil =>
    intro l2 l3 h1 h2
    cases h1; cases h2; exact List.Forall₂.nil
  | cons a as ih =>
    intro l2 l3 h1 h2
    cases h1 with
    | cons hab h1r =>
      cases h2 with
      | cons hbc h2r => exact List.Forall₂.cons (h _ _ _ hab hbc) (ih h1r h2r)

/-- Every member of the right list of a Forall₂ is related to some member
of the left list. -/
theorem forall2_mem_right {α β : Type} {R : α → β → Prop}
    {l1 : List α} {l2 : List β} (h : List.Forall₂ R l1 l2) :
    ∀ b ∈ l2, ∃ a ∈ l1, R a b := by
  induction h with
  | nil => intro b hb; cases hb
  | cons hab hr ih =>
    intro b hb
    cases hb with
    | head => exact ⟨_, List.mem_cons_self _ _, hab⟩
    | tail _ hb2 =>
      obtain ⟨a, ha, har⟩ := ih b hb2
      exact ⟨a, List.mem_cons_of_mem _ ha, har⟩

/-- A Forall₂ whose relation inverts a map determines the map of the
right list. -/
theorem forall2_map_eq {α β : Type} {f : β → α}
    {l1 : List α} {l2 : List β}
    (h : List.Forall₂ (fun a b => f b = a) l1 l2) : l2.map f = l1 := by
  induction h with
  | nil => rfl
  | cons hab _ ih => simp [ih, hab]

/-- Strengthening the relation of a Forall₂ using a property of the left
members. -/
theorem forall2_strengthen {α β : Type} {P : α → Prop} {R S : α → β → Prop}
    (h : ∀ a b, P a → R a b → S a b) :
    ∀ {l1 : List α} {l2 : List β}, (∀ a ∈ l1, P a) → List.Forall₂ R l1 l2 →
      List.Forall₂ S l1 l2 := by
  intro l1
  induction l1 with
  | nil =>
    intro l2 _ hr
    cases hr; exact List.Forall₂.nil
  | cons a as ih =>
    intro l2 hp hr
    cases hr with
    | cons hab hrest =>
      exact List.Forall₂.cons (h _ _ (hp _ (List.mem_cons_self _ _)) hab)
        (ih (fun a2 ha2 => hp a2 (List.mem_cons_of_mem _ ha2)) hrest)

/-- With top_k None and do_sample False, the generate loop always
succeeds, and each output row extends the corresponding input row by
exactly n tokens. -/
theorem generateAux_shape (applyFn : List (List ℤ) → Key → Logits × Key)
    (sampler : Key → List ℚ → ℤ) (bs : ℕ) (temp : ℚ)
    (hApply : ∀ x k, ((applyFn x k).1).length = x.length) :
    ∀ (n : ℕ) (st : List (List ℤ) × Key),
      ∃ st2, generateAux applyFn sampler bs temp false none n st = some st2 ∧
        List.Forall₂ (fun r r2 => r2.length = r.length + n ∧
          r2.take r.length = r) st.1 st2.1 := by
  intro n
  induction n with
  | zero =>
    intro st
    refine ⟨st, rfl, ?_⟩
    rw [List.forall₂_same]
    intro r _
    exact ⟨by omega, List.take_length r⟩
  | succ n ih =>
    intro st
    obtain ⟨tokens, k2, hlen, hstep⟩ :=
      generateStep_none_spec applyFn sampler bs temp hApply st
    obtain ⟨st2, haux, hf⟩ :=
      ih (st.1.zipWith (fun row t => row ++ [t]) tokens, k2)
    refine ⟨st2, ?_, ?_⟩
    · rw [generateAux, hstep, Option.some_bind]
      exact haux
    · refine forall2_trans_comp ?_ (forall2_append_one st.1 tokens hlen) hf
      intro a b c hab hbc
      obtain ⟨t, rfl⟩ := hab
      obtain ⟨hl3, ht3⟩ := hbc
      constructor
      · rw [hl3, List.length_append]
        simp; omega
      · have hmin : a.length ⊓ (a ++ [t]).length = a.length := by
          rw [List.length_append]; simp
        calc c.take a.length
            = (c.take (a ++ [t]).length).take a.length := by
              rw [List.take_take, hmin]
          _ = (a ++ [t]).take a.length := by rw [ht3]
          _ = a := List.take_left a [t]

/-- C4 counterexample: the sampling clause of the claim fails: with
do_sample True (top_k None) and one decoding step, generate does not
return a (b, t + 1) array at all: jax.random.categorical of the
(b, vocab) last-position logits is a rank-1 array of shape (b,), and
jnp.concatenate of the rank-2 running sequence with it along the last
axis raises ValueError, so the call fails in its first iteration. -/
theorem generate_dosample_fails_counterexample :
    generate (fun x k => (x.map (fun r => ([] : List (List ℚ))), k))
      (fun k l => 0) 1 0 [[0]] 1 1 true none = none := rfl

/-- C4 amended: with top_k None, generate with do_sample False is a
greedy autoregressive decoding loop: for every starting array idx of b
rows of length t and every max_new_tokens = n at least 0, it returns an
array of b rows of length t + n whose first t columns equal idx, one
token appended per step, each step appending to each row the argmax of
the model's scaled last-position logits; with do_sample True the step
fails (the rank-1 categorical sample cannot be concatenated to the
rank-2 sequence), so every sampling call with max_new_tokens at least 1
fails instead of appending sampled tokens. -/
theorem generate_autoregressive
    (applyFn : List (List ℤ) → Key → Logits × Key)
    (sampler : Key → List ℚ → ℤ) (bs : ℕ) (key : Key)
    (idx : List (List ℤ)) (n t : ℕ) (temp : ℚ)
    (hApply : ∀ x k, ((applyFn x k).1).length = x.length)
    (ht : ∀ r ∈ idx, r.length = t) :
    (∃ out, generate applyFn sampler bs key idx n temp false none = some out ∧
      out.length = idx.length ∧ (∀ r ∈ out, r.length = t + n) ∧
      out.map (List.take t) = idx) ∧
    (∀ st : List (List ℤ) × Key,
      generateStep applyFn sampler bs temp false none st =
        some (st.1.zipWith (fun row tok => row ++ [tok])
            ((lastLogits temp (applyFn (cropBlock bs st.1) st.2).1).map
              argmaxIdx),
          (applyFn (cropBlock bs st.1) st.2).2)) ∧
    (∀ st : List (List ℤ) × Key,
      generateStep applyFn sampler bs temp true none st = none) ∧
    (1 ≤ n →
      generate applyFn sampler bs key idx n temp true none = none) := by
  refine ⟨?_, fun st => rfl, fun st => rfl, ?_⟩
  · obtain ⟨st2, haux, hf⟩ :=
      generateAux_shape applyFn sampler bs temp hApply n (idx, key)
    refine ⟨st2.1, ?_, ?_, ?_, ?_⟩
    · unfold generate
      rw [haux]
      rfl
    · exact (List.Forall₂.length_eq hf).symm
    · intro r hr
      obtain ⟨a, ha, hl, _⟩ := forall2_mem_right hf r hr
      rw [hl, ht a ha]
    · refine forall2_map_eq (forall2_strengthen ?_ ht hf)
      intro a b hp hr
      rw [← hp]
      exact hr.2
  · intro hn
    obtain ⟨m, rfl⟩ : ∃ m, n = m + 1 := ⟨n - 1, by omega⟩
    rfl

/-- Witness for the amended C4 on a concrete one-row model and a
two-token prompt, exercising both the greedy and the failing sampling
conclusions. -/
theorem generate_autoregressive_witness :
    (∃ out, generate (fun x k => (x.map (fun r => [[(0 : ℚ), 1]]), k))
        (fun k l => 0) 3 0 [[0, 1]] 1 1 false none = some out ∧
      out.length = ([[0, 1]] : List (List ℤ)).length ∧
      (∀ r ∈ out, r.length = 2 + 1) ∧
      out.map (List.take 2) = [[0, 1]]) ∧
    generate (fun x k => (x.map (fun r => [[(0 : ℚ), 1]]), k))
      (fun k l => 0) 3 0 [[0, 1]] 1 1 true none = none :=
  ⟨(generate_autoregressive (fun x k => (x.map (fun r => [[(0 : ℚ), 1]]), k))
      (fun k l => 0) 3 0 [[0, 1]] 1 2 1
      (by intro x k; simp) (by decide)).1,
    (generate_autoregressive (fun x k => (x.map (fun r => [[(0 : ℚ), 1]]), k))
      (fun k l => 0) 3 0 [[0, 1]] 1 2 1
      (by intro x k; simp) (by decide)).2.2.2 (by decide)⟩

/-- Starting from uniform rows, every state the generate loop reaches
has uniform rows: after k steps all rows have length t + k. -/
theorem generateAux_uniform (applyFn : List (List ℤ) → Key → Logits × Key)
    (sampler : Key → List ℚ → ℤ) (bs : ℕ) (temp : ℚ) (ds : Bool)
    (hApply : ∀ x k, ((applyFn x k).1).length = x.length)
    (k : ℕ) (st st2 : List (List ℤ) × Key) (t : ℕ)
    (huni : ∀ r ∈ st.1, r.length = t)
    (haux : generateAux applyFn sampler bs temp ds none k st = some st2) :
    ∀ r ∈ st2.1, r.length = t + k := by
  cases ds with
  | false =>
    obtain ⟨st3, haux2, hf⟩ :=
      generateAux_shape applyFn sampler bs temp hApply k st
    rw [haux] at haux2
    obtain rfl := Option.some.inj haux2
    intro r hr
    obtain ⟨a, ha, hl, _⟩ := forall2_mem_right hf r hr
    rw [hl, huni a ha]
  | true =>
    cases k with
    | zero =>
      obtain rfl := Option.some.inj haux
      intro r hr
      simpa using huni r hr
    | succ m =>
      rw [show generateAux applyFn sampler bs temp true none (m + 1) st =
        none from rfl] at haux
      simp at haux

/-- When all rows have the same length, every row of the cropped context
has length at most block_size. -/
theorem cropBlock_rows_le (bs : ℕ) (idx : List (List ℤ)) (t : ℕ)
    (huni : ∀ r ∈ idx, r.length = t) :
    ∀ r ∈ cropBlock bs idx, r.length ≤ bs := by
  intro r hr
  unfold cropBlock at hr
  split_ifs at hr with hc
  · cases idx with
    | nil => exact absurd hr (List.not_mem_nil r)
    | cons i0 irest =>
      have h0 : numCols (i0 :: irest) = t := huni i0 (List.mem_cons_self _ _)
      rw [huni r hr, ← h0]
      exact hc
  · obtain ⟨row, _, rfl⟩ := List.mem_map.mp hr
    rw [List.length_drop]
    omega

/-- C7: inside generate the context is always cropped to the block size:
starting from an array with uniform row length, at every decoding step
the array idx_cond handed to the model apply function has all rows of
length at most block_size; and as soon as the running sequence exceeds
block_size columns, idx_cond consists of the last block_size tokens of
each row. -/
theorem generate_context_cropped
    (applyFn : List (List ℤ) → Key → Logits × Key)
    (sampler : Key → List ℚ → ℤ) (bs : ℕ) (temp : ℚ) (ds : Bool)
    (key : Key) (idx : List (List ℤ)) (t : ℕ)
    (hApply : ∀ x k, ((applyFn x k).1).length = x.length)
    (ht : ∀ r ∈ idx, r.length = t) :
    (∀ (k : ℕ) (st2 : List (List ℤ) × Key),
      generateAux applyFn sampler bs temp ds none k (idx, key) = some st2 →
      ∀ r ∈ cropBlock bs st2.1, r.length ≤ bs) ∧
    (∀ a : List (List ℤ), bs < numCols a →
      cropBlock bs a = a.map (fun row => row.drop (row.length - bs))) := by
  constructor
  · intro k st2 haux
    exact cropBlock_rows_le bs st2.1 (t + k)
      (generateAux_uniform applyFn sampler bs temp ds hApply k (idx, key)
        st2 t ht haux)
  · intro a ha
    unfold cropBlock
    rw [if_neg (by omega)]

/-- Witness for C7: after one decoding step on a two-column prompt with
block size 1, the reached state has rows of length 3 and the cropped
context consists of single tokens. -/
theorem generate_context_cropped_witness :
    ([0] : List ℤ).length ≤ 1 :=
  (generate_context_cropped
      (fun x k => (x.map (fun r => ([] : List (List ℚ))), k))
      (fun k l => 0) 1 1 false 0 [[0, 1]] 2
      (by intro x k; simp) (by decide)).1 1 ([[0, 1, 0]], 0) (by decide)
    [0] (by decide)

/-- C10 counterexample: a call of generate with top_k set but
max_new_tokens = 0 never executes the loop body, so it completes and
returns idx unchanged; generate with top_k not None does not always
fail before returning. -/
theorem generate_topk_completes_counterexample :
    generate (fun x k => (x.map (fun r => [[(0 : ℚ)]]), k)) (fun k l => 0)
      1 0 [[0]] 0 1 false (some 5) = some [[0]] := rfl

/-- C10 amended: every call of generate with top_k not None that executes
at least one decoding step (max_new_tokens at least 1) fails before
returning, because the top-k branch calls jnp.topk, which does not exist
in the jax.numpy namespace, and then attempts in-place assignment on a
JAX array; only top_k None invocations (or degenerate
max_new_tokens = 0 calls) can complete. -/
theorem generate_topk_fails (applyFn : List (List ℤ) → Key → Logits × Key)
    (sampler : Key → List ℚ → ℤ) (bs : ℕ) (key : Key)
    (idx : List (List ℤ)) (n : ℕ) (temp : ℚ) (ds : Bool) (k : ℕ)
    (hn : 1 ≤ n) :
    generate applyFn sampler bs key idx n temp ds (some k) = none := by
  obtain ⟨m, rfl⟩ : ∃ m, n = m + 1 := ⟨n - 1, by omega⟩
  rfl

/-- Witness for the amended C10 at a concrete model and prompt. -/
theorem generate_topk_fails_witness :
    generate (fun x k => (x.map (fun r => [[(0 : ℚ)]]), k)) (fun k l => 0)
      1 0 [[0]] 1 1 false (some 5) = none :=
  generate_topk_fails (fun x k => (x.map (fun r => [[(0 : ℚ)]]), k))
    (fun k l => 0) 1 0 [[0]] 1 1 false 5 (by decide)

/-- Summing the 0/1 image of a list of flags counts the true flags. -/
theorem sum_ite_count (results : List Bool) :
    (results.map (fun c => if c then (1 : ℤ) else 0)).sum =
      (results.count true : ℤ) := by
  induction results with
  | nil => rfl
  | cons c cs ih =>
    cases c <;> simp [List.count_cons, ih] <;> omega

/-- C5: eval_split returns, when it completes, the number of evaluated
examples whose generated completion matches the ground-truth sorted
sequence: the returned score equals the count of true flags in the
results list accumulated by the batch loop, hence lies between 0 and the
number of examples evaluated; and each batch's flags are produced by
greedy generation (do_sample false, top_k None, temperature 1) of n new
tokens from the first n columns of x, comparing the last n columns of
the labels y with the last n tokens of the generated rows. -/
theorem eval_split_counts_correct
    (applyFn : List (List ℤ) → Key → Logits × Key)
    (sampler : Key → List ℚ → ℤ) (splitKey : Key → Key × Key)
    (bs n : ℕ) (mb : Option ℕ) (key : Key)
    (batches : List (List (List ℤ) × List (List ℤ))) (s : ℤ)
    (h : eval_split applyFn sampler splitKey bs n mb key batches = some s) :
    (∃ results, evalLoop applyFn sampler splitKey bs n mb 0 key batches [] =
        some results ∧
      s = (results.count true : ℤ) ∧ 0 ≤ s ∧ s ≤ (results.length : ℤ)) ∧
    (∀ (k2 : Key) (x y : List (List ℤ)) (res : List Bool) (k3 : Key),
      evalBatch applyFn sampler splitKey bs n k2 x y = some (res, k3) →
      ∃ cat, generate applyFn sampler bs (splitKey k2).2
          (x.map (List.take n)) n 1 false none = some cat ∧
        res = List.zipWith (fun so c => decide (so = c))
          (y.map (fun r => r.drop (r.length - n))) (cat.map (List.drop n)) ∧
        k3 = (splitKey k2).1) := by
  constructor
  · unfold eval_split at h
    cases hl : evalLoop applyFn sampler splitKey bs n mb 0 key batches [] with
    | none => rw [hl] at h; simp at h
    | some results =>
      rw [hl] at h
      simp only [Option.map_some'] at h
      have hs := Option.some.inj h
      refine ⟨results, rfl, ?_, ?_, ?_⟩
      · rw [← hs, sum_ite_count]
      · rw [← hs, sum_ite_count]
        exact Int.natCast_nonneg _
      · rw [← hs, sum_ite_count]
        exact_mod_cast List.count_le_length true results
  · intro k2 x y res k3 hb
    simp only [evalBatch] at hb
    cases hgen : generate applyFn sampler bs (splitKey k2).2
        (x.map (List.take n)) n 1 false none with
    | none => rw [hgen] at hb; simp at hb
    | some cat =>
      rw [hgen] at hb
      simp only at hb
      have hp := Option.some.inj hb
      refine ⟨cat, rfl, ?_, ?_⟩
      · exact (congrArg Prod.fst hp).symm
      · exact (congrArg Prod.snd hp).symm

/-- Witness for C5: one batch of one example on a degenerate model; the
example is scored correct and the returned score is 1. -/
theorem eval_split_counts_correct_witness :
    ∃ results, evalLoop
        (fun x k => (x.map (fun r => ([] : List (List ℚ))), k))
        (fun k l => 0) (fun k => (k, k)) 3 1 none 0 0 [([[0]], [[0]])] [] =
        some results ∧
      (1 : ℤ) = (results.count true : ℤ) ∧ 0 ≤ (1 : ℤ) ∧
      (1 : ℤ) ≤ (results.length : ℤ) :=
  (eval_split_counts_correct
      (fun x k => (x.map (fun r => ([] : List (List ℚ))), k))
      (fun k l => 0) (fun k => (k, k)) 3 1 none 0 [([[0]], [[0]])] 1
      (by decide)).1
